import Mathlib

/-!
Verification of the PrawnDO labscript device driver.

This file gives a shallow embedding of the timeline-compilation and
device-programming code of the repository:

* `insertTime` / `get_update_times` embed `_Pod.get_update_times`
  (labscript_devices.py, lines 77-119);
* `generate_table` / `generate_code` embed the table-building part of
  `PrawnDODevice.generate_code` (labscript_devices.py, lines 228-280);
* `new_inst_count`, `decideFresh`, `programTable` embed the smart-cache
  logic of `PrawnDOWorker.transition_to_buffered` (blacs_workers.py,
  lines 173-247) together with the acknowledgment checks of
  `PrawnDOInterface` (blacs_workers.py, lines 44-84);
* `transition_to_manual` embeds the completion-polling loop of
  `PrawnDOWorker.transition_to_manual` (blacs_workers.py, lines 249-267).

Times are modelled as rationals (the Python code uses float64; every
concrete computation appearing below is exact in both).  Machine integers
are modelled as `Nat` with explicit wrap-around where the code casts.
-/

namespace PrawnDO

/-- `np.insert(l, idx, x)`: insert `x` so that it ends up at index `idx`. -/
def np_insert {α : Type*} (l : List α) (idx : ℕ) (x : α) : List α :=
  l.take idx ++ x :: l.drop idx

/-- Python/numpy indexing `l[i]` including negative-index wrap-around:
`l[-k]` reads `l[len l - k]`.  Out-of-range reads return `dflt`
(the Python code only performs in-range reads on the paths modelled). -/
def np_getD {α : Type*} (l : List α) (i : ℤ) (dflt : α) : α :=
  if i < 0 then l.getD (l.length - (-i).toNat) dflt else l.getD i.toNat dflt

/-- `np.searchsorted(l, t)` (left side) on a sorted array: the number of
leading elements strictly below `t`. -/
def searchsorted (l : List ℚ) (t : ℚ) : ℕ :=
  (l.takeWhile (fun x => decide (x < t))).length

/-- `np.rint`: round to nearest integer, ties to even. -/
def rintQ (q : ℚ) : ℤ :=
  let f := ⌊q⌋
  let r := q - f
  if r < 1/2 then f
  else if 1/2 < r then f + 1
  else if 2 ∣ f then f else f + 1

/-- `.astype(np.uint32)`: wrap an integer into `[0, 2^32)`. -/
def u32cast (x : ℤ) : ℕ := (x % (2 ^ 32)).toNat

/-!  ## `_Pod.get_update_times` (labscript_devices.py 77-119)

One iteration of the inner loop: candidate update time `t` is merged into
the sorted array `ts`, with the minimum-duration guard.  Sub-resolution
candidates are silently dropped (the function just returns `ts`). -/

def insertTime (minDur : ℚ) (ts : List ℚ) (t : ℚ) : List ℚ :=
  if t ∈ ts then ts
  else if ts.length = 0 then [t]
  else if ts.getLastD 0 < t then
    if minDur ≤ t - ts.getLastD 0 then ts ++ [t] else ts
  else if t < ts.headD 0 then
    if minDur ≤ ts.headD 0 - t then t :: ts else ts
  else
    let idx := searchsorted ts t
    if minDur ≤ t - np_getD ts ((idx : ℤ) - 1) 0 ∧
       minDur ≤ np_getD ts (idx : ℤ) 0 - t then
      np_insert ts idx t
    else ts

/-- `_Pod.get_update_times`: fold every change time of every child output
into the merged update-time array, starting from the empty array. -/
def get_update_times (minDur : ℚ) (channels : List (List ℚ)) : List ℚ :=
  channels.foldl (fun acc ch => ch.foldl (insertTime minDur) acc) []

/-- Adjacent-instant separation: strictly increasing and gap at least
`minDur`. -/
def sepRel (minDur : ℚ) (a b : ℚ) : Prop := a < b ∧ minDur ≤ b - a

/-! ### List helper lemmas -/

lemma headD_mem {α : Type*} {l : List α} (h : l ≠ []) (d : α) : l.headD d ∈ l := by
  cases l with
  | nil => exact absurd rfl h
  | cons a l => simp

lemma getLastD_mem {α : Type*} : ∀ {l : List α}, l ≠ [] → ∀ d : α, l.getLastD d ∈ l := by
  intro l
  induction l with
  | nil => intro h; exact absurd rfl h
  | cons a l ih =>
    intro _ d
    cases l with
    | nil => simp
    | cons b m =>
      rw [List.getLastD_cons]
      exact List.mem_cons_of_mem a (ih (by simp) a)

lemma head?_eq_some_headD {α : Type*} {l : List α} (h : l ≠ []) (d : α) :
    l.head? = some (l.headD d) := by
  cases l with
  | nil => exact absurd rfl h
  | cons a l => simp

lemma getLast?_eq_some_getLastD {α : Type*} {l : List α} (h : l ≠ []) (d : α) :
    l.getLast? = some (l.getLastD d) := by
  rw [List.getLastD_eq_getLast?]
  cases hl : l.getLast? with
  | none => exact absurd (List.getLast?_eq_none_iff.mp hl) h
  | some a => rfl

lemma headD_drop {α : Type*} : ∀ (l : List α) (n : ℕ) (d : α),
    (l.drop n).headD d = l.getD n d
  | [], 0, _ => rfl
  | [], _ + 1, _ => rfl
  | _ :: _, 0, _ => rfl
  | _ :: l, n + 1, d => headD_drop l n d

lemma getLastD_eq_getD {α : Type*} : ∀ (l : List α), l ≠ [] → ∀ d d' : α,
    l.getLastD d = l.getD (l.length - 1) d'
  | [], h, _, _ => absurd rfl h
  | [_], _, _, _ => rfl
  | a :: b :: m, _, d, d' => by
    rw [List.getLastD_cons, getLastD_eq_getD (b :: m) (by simp) a d']
    simp

lemma getD_append_left {α : Type*} {l₁ l₂ : List α} {n : ℕ} (h : n < l₁.length) (d : α) :
    (l₁ ++ l₂).getD n d = l₁.getD n d := by
  induction l₁ generalizing n with
  | nil => simp at h
  | cons a l ih =>
    cases n with
    | zero => rfl
    | succ n =>
      rw [List.cons_append, List.getD_cons_succ, List.getD_cons_succ]
      exact ih (by simp at h; omega)

lemma take_len_takeWhile {α : Type*} (p : α → Bool) : ∀ (l : List α),
    l.take (l.takeWhile p).length = l.takeWhile p := by
  intro l
  induction l with
  | nil => rfl
  | cons a l ih =>
    rw [List.takeWhile_cons]
    cases hp : p a with
    | false => simp
    | true => simpa using ih

lemma drop_len_takeWhile {α : Type*} (p : α → Bool) : ∀ (l : List α),
    l.drop (l.takeWhile p).length = l.dropWhile p := by
  intro l
  induction l with
  | nil => rfl
  | cons a l ih =>
    rw [List.takeWhile_cons, List.dropWhile_cons]
    cases hp : p a with
    | false => simp
    | true => simpa using ih

lemma head_dropWhile_false {α : Type*} {p : α → Bool} :
    ∀ {l : List α}, l.dropWhile p ≠ [] → ∀ d : α, p ((l.dropWhile p).headD d) = false := by
  intro l
  induction l with
  | nil => intro h; exact absurd rfl h
  | cons a l ih =>
    intro h d
    rw [List.dropWhile_cons] at *
    cases hp : p a with
    | false => simp [hp] at h ⊢
    | true =>
      simp only [hp, if_pos] at h ⊢
      exact ih h d

/-! ### Claim C1: the merged update-time array -/

/-- Folding one channel's change times preserves the separation chain. -/
lemma chain'_insertTime (minDur t : ℚ) {ts : List ℚ}
    (h : List.Chain' (sepRel minDur) ts) :
    List.Chain' (sepRel minDur) (insertTime minDur ts t) := by
  unfold insertTime
  by_cases hmem : t ∈ ts
  · simpa [hmem] using h
  by_cases hnil : ts.length = 0
  · simp [hmem, hnil]
  rw [if_neg hmem, if_neg hnil]
  have hne : ts ≠ [] := fun hn => hnil (by simp [hn])
  by_cases hlast : ts.getLastD 0 < t
  · rw [if_pos hlast]
    by_cases hgap : minDur ≤ t - ts.getLastD 0
    · rw [if_pos hgap, List.chain'_append]
      refine ⟨h, List.chain'_singleton t, ?_⟩
      intro x hx y hy
      rw [getLast?_eq_some_getLastD hne 0, Option.mem_some_iff] at hx
      simp only [List.head?_cons, Option.mem_some_iff] at hy
      subst hx; subst hy
      exact ⟨hlast, hgap⟩
    · rwa [if_neg hgap]
  rw [if_neg hlast]
  by_cases hhead : t < ts.headD 0
  · rw [if_pos hhead]
    by_cases hgap : minDur ≤ ts.headD 0 - t
    · rw [if_pos hgap, List.chain'_cons']
      refine ⟨?_, h⟩
      intro y hy
      rw [head?_eq_some_headD hne 0, Option.mem_some_iff] at hy
      subst hy
      exact ⟨hhead, hgap⟩
    · rwa [if_neg hgap]
  rw [if_neg hhead]
  -- middle insertion: the candidate lies strictly between head and last
  set p : ℚ → Bool := fun x => decide (x < t) with hp
  set idx : ℕ := searchsorted ts t with hidx
  have hidx_len : idx = (ts.takeWhile p).length := rfl
  -- the head is strictly below `t`, so the takeWhile part is nonempty
  have hheadlt : ts.headD 0 < t := by
    rcases lt_or_eq_of_le (not_lt.mp hhead) with h' | h'
    · exact h'
    · exact absurd (h' ▸ headD_mem hne 0) hmem
  have htw_ne : ts.takeWhile p ≠ [] := by
    cases hts : ts with
    | nil => exact absurd hts hne
    | cons a l =>
      have ha : p a = true := by
        rw [hts] at hheadlt
        rw [hp]
        exact decide_eq_true (by simpa using hheadlt)
      rw [List.takeWhile_cons, ha]
      simp
  have hidx_pos : 1 ≤ idx := by
    rw [hidx_len]
    exact Nat.one_le_iff_ne_zero.mpr (fun hz => htw_ne (List.eq_nil_of_length_eq_zero hz))
  -- the last element is not below `t`, so the dropWhile part is nonempty
  have hdw_ne : ts.dropWhile p ≠ [] := by
    intro hdw
    have hall := List.dropWhile_eq_nil_iff.mp hdw
    have := hall _ (getLastD_mem hne 0)
    rw [hp] at this
    exact hlast (of_decide_eq_true this)
  have hidx_lt : idx < ts.length := by
    conv_rhs => rw [← List.takeWhile_append_dropWhile p ts]
    rw [List.length_append, hidx_len]
    have : 0 < (ts.dropWhile p).length := List.length_pos.mpr hdw_ne
    omega
  have htake : ts.take idx = ts.takeWhile p := take_len_takeWhile p ts
  have hdrop : ts.drop idx = ts.dropWhile p := drop_len_takeWhile p ts
  -- identify the two neighbours read by the guard
  have hprev_eq : np_getD ts ((idx : ℤ) - 1) 0 = (ts.takeWhile p).getLastD 0 := by
    unfold np_getD
    rw [if_neg (by omega)]
    have htn : ((idx : ℤ) - 1).toNat = idx - 1 := by omega
    rw [htn]
    conv_lhs => rw [← List.takeWhile_append_dropWhile p ts]
    rw [getD_append_left (by omega) 0, getLastD_eq_getD _ htw_ne 0 0, ← hidx_len]
  have hnext_eq : np_getD ts (idx : ℤ) 0 = (ts.dropWhile p).headD 0 := by
    unfold np_getD
    rw [if_neg (by omega), Int.toNat_natCast, ← headD_drop, hdrop]
  set prev := (ts.takeWhile p).getLastD 0 with hprev
  set next := (ts.dropWhile p).headD 0 with hnext
  have hprev_lt : prev < t := by
    have := List.mem_takeWhile_imp (getLastD_mem htw_ne 0)
    rw [hp] at this
    exact of_decide_eq_true this
  have hnext_gt : t < next := by
    have hnp : p next = false := head_dropWhile_false hdw_ne 0
    have hle : t ≤ next := by
      rw [hp] at hnp
      exact not_lt.mp (of_decide_eq_false hnp)
    rcases lt_or_eq_of_le hle with h' | h'
    · exact h'
    · have : next ∈ ts :=
        (List.dropWhile_suffix p).subset (headD_mem hdw_ne 0)
      exact absurd (h' ▸ this) hmem
  by_cases hguard : minDur ≤ t - np_getD ts ((idx : ℤ) - 1) 0 ∧
      minDur ≤ np_getD ts (idx : ℤ) 0 - t
  · rw [if_pos hguard]
    obtain ⟨hg1, hg2⟩ := hguard
    rw [hprev_eq] at hg1
    rw [hnext_eq] at hg2
    unfold np_insert
    rw [htake, hdrop, List.chain'_append]
    refine ⟨htake ▸ h.take idx, ?_, ?_⟩
    · rw [List.chain'_cons']
      refine ⟨?_, hdrop ▸ h.drop idx⟩
      intro y hy
      rw [head?_eq_some_headD hdw_ne 0, Option.mem_some_iff] at hy
      subst hy
      exact ⟨hnext_gt, hg2⟩
    · intro x hx y hy
      rw [getLast?_eq_some_getLastD htw_ne 0, Option.mem_some_iff] at hx
      simp only [List.head?_cons, Option.mem_some_iff] at hy
      subst hx; subst hy
      exact ⟨hprev_lt, hg1⟩
  · rwa [if_neg hguard]

lemma chain'_foldl_insertTime (minDur : ℚ) (ch : List ℚ) {acc : List ℚ}
    (h : List.Chain' (sepRel minDur) acc) :
    List.Chain' (sepRel minDur) (ch.foldl (insertTime minDur) acc) := by
  induction ch generalizing acc with
  | nil => exact h
  | cons t ch ih => exact ih (chain'_insertTime minDur t h)

/-- C1.  For every collection of per-channel change-time sequences, the
merged array returned by `_Pod.get_update_times` is strictly increasing
and adjacent instants are separated by at least `minimum_duration`;
a candidate is inserted only when the guards against both neighbours hold
(one neighbour at either end), and rejected candidates are dropped
silently, the function simply returning the unchanged array. -/
theorem get_update_times_separated (minDur : ℚ) (channels : List (List ℚ)) :
    List.Chain' (sepRel minDur) (get_update_times minDur channels) := by
  unfold get_update_times
  have : ∀ (cs : List (List ℚ)) (acc : List ℚ), List.Chain' (sepRel minDur) acc →
      List.Chain' (sepRel minDur)
        (cs.foldl (fun a ch => ch.foldl (insertTime minDur) a) acc) := by
    intro cs
    induction cs with
    | nil => intro acc h; exact h
    | cons ch cs ih =>
      intro acc h
      exact ih _ (chain'_foldl_insertTime minDur ch h)
  exact this channels [] List.chain'_nil

/-! ## `PrawnDODevice.generate_code` (labscript_devices.py 228-280)

The table-building part: the output words (one per merged instant) and
the merged instants are inputs here; the code derives the repeat counts
with `np.rint(np.diff(times)/resolution).astype(np.uint32)`, appends the
stop sequence, and splices in one zero-duration row per wait. -/

/-- One iteration of the wait-insertion loop: find the wait's position in
the (unchanged) instant array and insert a zero-rep row there, the output
word being read from the row before the insertion point (numpy negative
indexing applies when the position is 0). -/
def insertWaitStep (times : List ℚ) (st : List ℕ × List ℕ) (w : ℚ) :
    List ℕ × List ℕ :=
  let idx := searchsorted times w
  (np_insert st.1 idx (np_getD st.1 ((idx : ℤ) - 1) 0),
   np_insert st.2 idx 0)

/-- The `(do_table, reps)` pair built by `generate_code` before the
instruction-count check: inter-instant repeat counts, the two stop rows,
then the wait rows. -/
def generate_table (resolution : ℚ) (times : List ℚ) (words : List ℕ)
    (waits : List ℚ) : List ℕ × List ℕ :=
  let reps0 := (times.zip times.tail).map (fun p => u32cast (rintQ ((p.2 - p.1) / resolution)))
  -- reps = np.append(reps, 0); do_table = np.append(do_table, 0); reps = np.append(reps, 0)
  let do_table := words ++ [0]
  let reps := (reps0 ++ [0]) ++ [0]
  waits.foldl (insertWaitStep times) (do_table, reps)

/-- Result of `PrawnDODevice.generate_code`: either no instructions (no
datasets written), the "Too Many Commands" `LabscriptError` (raised before
any dataset is created, so nothing is written), or the two datasets. -/
inductive GenResult
  | noOutput
  | tooMany
  | written (do_table reps : List ℕ)
deriving DecidableEq

def generate_code (resolution : ℚ) (max_instructions : ℕ) (times : List ℚ)
    (words : List ℕ) (waits : List ℚ) : GenResult :=
  if times.length = 0 then .noOutput
  else
    let t := generate_table resolution times words waits
    if max_instructions < t.2.length then .tooMany
    else .written t.1 t.2

/-! ### Claim C2: the terminal pair survives wait insertion -/

lemma length_np_insert {α : Type*} (l : List α) (idx : ℕ) (x : α) :
    (np_insert l idx x).length = l.length + 1 := by
  unfold np_insert
  simp only [List.length_append, List.length_take, List.length_cons, List.length_drop]
  omega

lemma np_insert_append {α : Type*} {l₁ : List α} (l₂ : List α) {idx : ℕ}
    (h : idx ≤ l₁.length) (x : α) :
    np_insert (l₁ ++ l₂) idx x = np_insert l₁ idx x ++ l₂ := by
  unfold np_insert
  rw [List.take_append_of_le_length h, List.drop_append_of_le_length h]
  simp

lemma searchsorted_lt_of_le_last {times : List ℚ} (h : times ≠ []) {w : ℚ}
    (hw : w ≤ times.getLastD 0) : searchsorted times w < times.length := by
  set p : ℚ → Bool := fun x => decide (x < w) with hp
  have hdw_ne : times.dropWhile p ≠ [] := by
    intro hdw
    have hall := List.dropWhile_eq_nil_iff.mp hdw
    have := hall _ (getLastD_mem h 0)
    rw [hp] at this
    exact absurd hw (not_le.mpr (of_decide_eq_true this))
  have hlen : (times.takeWhile p).length + (times.dropWhile p).length = times.length := by
    rw [← List.length_append, List.takeWhile_append_dropWhile]
  have : 0 < (times.dropWhile p).length := List.length_pos.mpr hdw_ne
  have hs : searchsorted times w = (times.takeWhile p).length := by rw [hp]; rfl
  omega

/-- C2.  For every non-empty instant sequence, `generate_code` appends
exactly two terminal rows with repeat count 0 — the first carrying the
final output word, the second carrying output word 0 — and for every
list of wait instants not exceeding the final instant these two rows
remain the last two rows of the table: the table splits as a body
(of equal word/reps length) followed by the terminal pair. -/
theorem generate_table_terminal_pair (resolution : ℚ) (times : List ℚ)
    (words : List ℕ) (waits : List ℚ) (h1 : times ≠ [])
    (h2 : words.length = times.length)
    (hw : ∀ w ∈ waits, w ≤ times.getLastD 0) :
    ∃ pd pr : List ℕ,
      generate_table resolution times words waits
        = (pd ++ [words.getLastD 0, 0], pr ++ [0, 0]) ∧
      pd.length = pr.length := by
  have hwords_ne : words ≠ [] := by
    intro hn
    rw [hn] at h2
    exact h1 (List.eq_nil_of_length_eq_zero h2.symm)
  have hsplit : words = words.dropLast ++ [words.getLastD 0] := by
    conv_lhs => rw [← List.dropLast_append_getLast hwords_ne]
    rw [List.getLastD_eq_getLast?, List.getLast?_eq_getLast_of_ne_nil hwords_ne]
    rfl
  unfold generate_table
  set reps0 := (times.zip times.tail).map
      (fun p => u32cast (rintQ ((p.2 - p.1) / resolution))) with hreps0
  have hlen0 : reps0.length = times.length - 1 := by
    rw [hreps0, List.length_map, List.length_zip, List.length_tail]
    omega
  -- invariant carried through the wait-insertion fold
  suffices H : ∀ (ws : List ℚ), (∀ w ∈ ws, w ≤ times.getLastD 0) →
      ∀ (st : List ℕ × List ℕ),
      (∃ pd pr : List ℕ, st = (pd ++ [words.getLastD 0, 0], pr ++ [0, 0]) ∧
        pd.length = pr.length ∧ times.length - 1 ≤ pd.length) →
      ∃ pd pr : List ℕ,
        ws.foldl (insertWaitStep times) st = (pd ++ [words.getLastD 0, 0], pr ++ [0, 0]) ∧
        pd.length = pr.length by
    refine H waits hw _ ⟨words.dropLast, reps0, ?_, ?_, ?_⟩
    · have e1 : words.dropLast ++ [words.getLastD 0, 0] = words ++ [0] := by
        conv_rhs => rw [hsplit]
        simp
      have e2 : reps0 ++ [0] ++ [0] = reps0 ++ [0, 0] := by simp
      rw [e1, e2]
    · rw [List.length_dropLast, hlen0, h2]
    · rw [List.length_dropLast, h2]
  intro ws
  induction ws with
  | nil =>
    intro _ st hst
    obtain ⟨pd, pr, hst, hlen, _⟩ := hst
    exact ⟨pd, pr, hst, hlen⟩
  | cons w ws ih =>
    intro hws st hst
    obtain ⟨pd, pr, hst, hlen, hbound⟩ := hst
    rw [List.foldl_cons]
    refine ih (fun x hx => hws x (List.mem_cons_of_mem w hx)) _ ?_
    have hidx : searchsorted times w < times.length :=
      searchsorted_lt_of_le_last h1 (hws w (List.mem_cons_self w ws))
    have hidx_le : searchsorted times w ≤ pd.length := by omega
    have hidx_le' : searchsorted times w ≤ pr.length := by omega
    subst hst
    refine ⟨np_insert pd (searchsorted times w)
        (np_getD (pd ++ [words.getLastD 0, 0]) (((searchsorted times w : ℕ) : ℤ) - 1) 0),
      np_insert pr (searchsorted times w) 0, ?_, ?_, ?_⟩
    · unfold insertWaitStep
      simp only
      rw [show (pd ++ [words.getLastD 0, 0] : List ℕ)
            = pd ++ ([words.getLastD 0, 0] : List ℕ) from rfl,
        np_insert_append _ hidx_le, np_insert_append _ hidx_le']
    · rw [length_np_insert, length_np_insert, hlen]
    · rw [length_np_insert]
      omega

/-! ### Claim C6: the shape of one wait insertion -/

/-- C6.  For a wait instant `w`, the loop body inserts, at the
binary-search position of `w` in the instant array, exactly one row with
repeat count 0 whose output word is copied from the immediately
preceding row — except that at insertion position 0 the carried word
is 0 (numpy's `do_table[-1]` wrap-around reads the terminal row, whose
word is 0).  No other row is added and no existing row changes: the
result is literally the old tables with one entry spliced in. -/
theorem insertWaitStep_shape (times : List ℚ) (w : ℚ) (d r : List ℕ)
    (hne : d ≠ []) (hlast : d.getLastD 0 = 0)
    (hidx : searchsorted times w < d.length) :
    insertWaitStep times (d, r) w =
      (d.take (searchsorted times w) ++
         (if searchsorted times w = 0 then 0 else d.getD (searchsorted times w - 1) 0) ::
         d.drop (searchsorted times w),
       r.take (searchsorted times w) ++ 0 :: r.drop (searchsorted times w)) := by
  have hval : np_getD d (((searchsorted times w : ℕ) : ℤ) - 1) 0 =
      if searchsorted times w = 0 then 0 else d.getD (searchsorted times w - 1) 0 := by
    by_cases h0 : searchsorted times w = 0
    · rw [if_pos h0, h0]
      unfold np_getD
      rw [if_pos (by omega)]
      have ht : (-((((0:ℕ):ℤ)) - 1)).toNat = 1 := by omega
      rw [ht, ← getLastD_eq_getD d hne 0 0]
      exact hlast
    · rw [if_neg h0]
      unfold np_getD
      rw [if_neg (by omega)]
      congr 1
      omega
  show (np_insert d (searchsorted times w)
          (np_getD d (((searchsorted times w : ℕ) : ℤ) - 1) 0),
        np_insert r (searchsorted times w) 0) = _
  rw [hval]
  rfl

/-! ### Claim C7: the instruction-count ceiling -/

/-- C7.  When the row count after appending the terminal pair and
inserting the wait rows exceeds `max_instructions`, `generate_code`
raises the "Too Many Commands" `LabscriptError` before either dataset is
created: the result is `GenResult.tooMany`, not `GenResult.written`. -/
theorem generate_code_limit (resolution : ℚ) (max_instructions : ℕ)
    (times : List ℚ) (words : List ℕ) (waits : List ℚ) (h1 : times ≠ [])
    (h2 : max_instructions < (generate_table resolution times words waits).2.length) :
    generate_code resolution max_instructions times words waits = .tooMany := by
  unfold generate_code
  rw [if_neg (fun h => h1 (List.eq_nil_of_length_eq_zero h)), if_pos h2]

/-! ### Claim C9: the concrete two-channel scenario

Channels {0,1} change at t=0 (word 0x0000), t=100 ns (word 0x0001) and
t=100.03 µs (word 0x0003), resolution 10 ns.  The inter-instant gaps are
100 ns and 99 930 ns, so the repeat counts are 10 and 9993 — not 9997 as
the spec's scenario states. -/

/-- C9 counterexample: at the scenario's input the compiled table is not
`[(0x0000,10), (0x0001,9997), (0x0003,0), (0x0000,0)]`. -/
theorem scenario_table_not_9997 :
    generate_table (1/100000000) [0, 1/10000000, 10003/100000000] [0, 1, 3] []
      ≠ ([0, 1, 3, 0], [10, 9997, 0, 0]) := by
  have h : generate_table (1/100000000) [0, 1/10000000, 10003/100000000] [0, 1, 3] []
      = ([0, 1, 3, 0], [10, 9993, 0, 0]) := by
    norm_num [generate_table, u32cast, rintQ]
    omega
  rw [h]
  decide

/-- C9 amended: the repeat counts are `round((t[i+1] - t[i])/resolution)`
cast to unsigned 32-bit, giving `reps = [10, 9993]` and the table
`[(0x0000,10), (0x0001,9993), (0x0003,0), (0x0000,0)]`. -/
theorem scenario_table_9993 :
    generate_table (1/100000000) [0, 1/10000000, 10003/100000000] [0, 1, 3] []
      = ([0, 1, 3, 0], [10, 9993, 0, 0]) := by
  norm_num [generate_table, u32cast, rintQ]
  omega

/-! ## `PrawnDOWorker.transition_to_buffered` (blacs_workers.py 173-247)

The smart cache compares the new `(do_table, reps)` pair against the
cached pair. -/

/-- `np.sum((curr_reps != reps) | (curr_do != do_table))`: the number of
row positions at which the word or the repeat count differs (the arrays
compared have equal length wherever the code evaluates this). -/
def countDiffRows (cdo creps ndo nreps : List ℕ) : ℕ :=
  ((List.zipWith (fun a b => decide (a ≠ b)) creps nreps).zipWith
    (fun x y => x || y)
    (List.zipWith (fun a b => decide (a ≠ b)) cdo ndo)).count true

/-- The `new_inst` computation of `transition_to_buffered` (lines
200-211): compare up to the shorter length, and add the length excess
only when the new table is the longer one. -/
def new_inst_count (cdo creps ndo nreps : List ℕ) : ℕ :=
  if creps.length > nreps.length then
    countDiffRows (cdo.take nreps.length) (creps.take nreps.length) ndo nreps
  else if creps.length < nreps.length then
    countDiffRows cdo creps (ndo.take creps.length) (nreps.take creps.length)
      + (nreps.length - creps.length)
  else
    countDiffRows cdo creps ndo nreps

/-- Modelled from the spec claim C3 (not from the code): mismatches over
the first `min(len(cached), len(new))` rows plus the absolute length
difference, "every row present in only one of the two tables counts as
differing". -/
def spec_inst_count (cdo creps ndo nreps : List ℕ) : ℕ :=
  let m := min creps.length nreps.length
  countDiffRows (cdo.take m) (creps.take m) (ndo.take m) (nreps.take m)
    + (max creps.length nreps.length - min creps.length nreps.length)

/-- C3 counterexample: with a cached table of two rows and a new table of
one identical row, the code counts 0 differing instructions while the
claim's formula counts 1 (the cached row with no counterpart). -/
theorem new_inst_count_ne_spec :
    new_inst_count [0, 0] [1, 1] [0] [1] ≠ spec_inst_count [0, 0] [1, 1] [0] [1] := by
  decide

/-- C3 amended: the differing-instruction count equals the row-wise
mismatches over the first `min(len(cached), len(new))` rows plus the
length excess of the *new* table over the cached one (truncated at zero):
rows present only in the cached table do not count. -/
theorem new_inst_count_eq (cdo creps ndo nreps : List ℕ)
    (hc : cdo.length = creps.length) (hn : ndo.length = nreps.length) :
    new_inst_count cdo creps ndo nreps =
      countDiffRows (cdo.take (min creps.length nreps.length))
        (creps.take (min creps.length nreps.length))
        (ndo.take (min creps.length nreps.length))
        (nreps.take (min creps.length nreps.length))
      + (nreps.length - creps.length) := by
  unfold new_inst_count
  have t1 : cdo.take creps.length = cdo := by rw [← hc]; exact List.take_length cdo
  have t2 : creps.take creps.length = creps := List.take_length creps
  have t3 : ndo.take nreps.length = ndo := by rw [← hn]; exact List.take_length ndo
  have t4 : nreps.take nreps.length = nreps := List.take_length nreps
  rcases lt_trichotomy creps.length nreps.length with hlt | heq | hgt
  · rw [if_neg (by omega), if_pos hlt,
      show min creps.length nreps.length = creps.length from by omega, t1, t2]
  · rw [if_neg (by omega), if_neg (by omega),
      show min creps.length nreps.length = creps.length from by omega, t1, t2,
      show ndo.take creps.length = ndo from by rw [heq]; exact t3,
      show nreps.take creps.length = nreps from by rw [heq]; exact t4]
    omega
  · rw [if_pos hgt,
      show min creps.length nreps.length = nreps.length from by omega, t3, t4]
    omega

/-! ## The programming session (blacs_workers.py 173-247, 44-84)

Upload commands sent to the device during `transition_to_buffered`
(`clk`/`run` bracket every call and carry no table data; they are not
modelled).  The device is modelled by `ack : ℕ → Bool`: whether the k-th
upload command of the session is answered with the literal `'ok\r\n'`
line; any other answer makes `send_command_ok` raise a `LabscriptError`
and makes the `adm` batch assertion fail. -/

inductive Cmd
  | cls
  | admBatch (dos reps : List ℕ)
  | setRow (i o r : ℕ)
deriving DecidableEq

/-- Outcome of the programming section: the upload commands issued in
order, the smart-cache contents afterwards, and the exception raised, if
any ("protocol" for a non-`ok` acknowledgment, "IndexError" for the
out-of-bounds numpy cache assignment). -/
structure ProgOutcome where
  cmds : List Cmd
  cache : Option (List ℕ × List ℕ)
  err : Option String
deriving DecidableEq

/-- The full-reprogram path (lines 218-223): `cls`, then the binary `adm`
batch; the cache is replaced only after the batch is acknowledged. -/
def batchPath (ack : ℕ → Bool) (cache : Option (List ℕ × List ℕ))
    (do_table reps : List ℕ) : ProgOutcome :=
  if ack 0 = false then ⟨[.cls], cache, some "protocol"⟩
  else if ack 1 = false then ⟨[.cls, .admBatch do_table reps], cache, some "protocol"⟩
  else ⟨[.cls, .admBatch do_table reps], some (do_table, reps), none⟩

/-- The incremental path (lines 224-240): one `set` command per row of
`zip(do_table, reps)` that is beyond the cached length or differs from
the cache; each confirmed patch updates the cache entry.  For a row
beyond the cached length the `set` command is sent, but the subsequent
numpy assignment `smart_cache['do_table'][i] = output` is out of bounds
on the fixed-size cached array and raises IndexError. -/
def incrLoop (ack : ℕ → Bool) : List (ℕ × ℕ) → ℕ → ℕ → List ℕ → List ℕ → ProgOutcome
  | [], _, _, cdo, creps => ⟨[], some (cdo, creps), none⟩
  | (o, r) :: rest, i, k, cdo, creps =>
    if creps.length ≤ i then
      if ack k then ⟨[.setRow i o r], some (cdo, creps), some "IndexError"⟩
      else ⟨[.setRow i o r], some (cdo, creps), some "protocol"⟩
    else if cdo.getD i 0 ≠ o ∨ creps.getD i 0 ≠ r then
      if ack k then
        let out := incrLoop ack rest (i + 1) (k + 1) (cdo.set i o) (creps.set i r)
        ⟨.setRow i o r :: out.cmds, out.cache, out.err⟩
      else ⟨[.setRow i o r], some (cdo, creps), some "protocol"⟩
    else incrLoop ack rest (i + 1) k cdo creps

/-- Lines 194-214: when not forced fresh and the cache is non-empty,
compare against the cache and force a fresh reprogram when
`new_inst / total_inst > 0.1` (Python float division; exact here). -/
def decideFresh (fresh : Bool) (cache : Option (List ℕ × List ℕ))
    (do_table reps : List ℕ) : Bool :=
  match fresh, cache with
  | false, some (cdo, creps) =>
    decide (((new_inst_count cdo creps do_table reps : ℚ) / (reps.length : ℚ)) > 1/10)
  | _, _ => fresh

/-- The programming section of `transition_to_buffered` (lines 193-240). -/
def programTable (ack : ℕ → Bool) (fresh : Bool) (cache : Option (List ℕ × List ℕ))
    (do_table reps : List ℕ) : ProgOutcome :=
  match cache with
  | none => batchPath ack none do_table reps
  | some (cdo, creps) =>
    if decideFresh fresh (some (cdo, creps)) do_table reps then
      batchPath ack (some (cdo, creps)) do_table reps
    else incrLoop ack (do_table.zip reps) 0 0 cdo creps

/-! ### Claim C4: the incremental path on a newly appended row

With ten cached rows and an identical eleven-row table the differing
fraction is 1/11 ≤ 10%, so the incremental path runs; at row 10 the
`set` command is sent and every acknowledgment is `ok`, yet programming
fails with IndexError on the cache assignment instead of updating the
cache entry as the claim describes. -/

/-- C4 (code bug): evaluation of the programming section at the failing
input — cache of 10 rows, identical new table of 11 rows, all
acknowledgments `ok`.  The one appended row gets its `set` command, then
the fixed-size numpy cache array cannot be grown: IndexError, cache not
updated, programming never completes. -/
theorem programTable_appended_row_crash :
    programTable (fun _ => true) false
      (some (List.replicate 10 0, List.replicate 10 1))
      (List.replicate 11 0) (List.replicate 11 1)
    = ⟨[.setRow 10 0 1], some (List.replicate 10 0, List.replicate 10 1),
        some "IndexError"⟩ := by
  have h1 : new_inst_count (List.replicate 10 0) (List.replicate 10 1)
      (List.replicate 11 0) (List.replicate 11 1) = 1 := by decide
  have h2 : decideFresh false (some (List.replicate 10 0, List.replicate 10 1))
      (List.replicate 11 0) (List.replicate 11 1) = false := by
    simp only [decideFresh]
    rw [h1]
    norm_num
  simp only [programTable]
  rw [h2]
  simp only [Bool.false_eq_true, if_false]
  decide

/-! ### Claim C5: failed upload acknowledgment and the cache -/

/-- C5 counterexample: the device answers the `adm` batch with something
other than `'ok\r\n'` (the second upload command is not acknowledged).
The error is raised, but the cache still holds the previously programmed
table, and the next programming attempt with that cache does not force a
full reprogram (here: resending the cached table chooses the incremental
path with zero commands, since `decideFresh` stays `false`). -/
theorem upload_ack_failure_counterexample :
    (programTable (fun k => decide (k = 0)) false (some ([0], [5])) [1] [5]).err
        = some "protocol"
    ∧ (programTable (fun k => decide (k = 0)) false (some ([0], [5])) [1] [5]).cache
        = some ([0], [5])
    ∧ decideFresh false (some ([0], [5])) [0] [5] = false := by
  have hni : new_inst_count [0] [5] [1] [5] = 1 := by decide
  have hf : decideFresh false (some ([0], [5])) [1] [5] = true := by
    simp only [decideFresh]
    rw [hni]
    norm_num
  have hni0 : new_inst_count [0] [5] [0] [5] = 0 := by decide
  have hf0 : decideFresh false (some ([0], [5])) [0] [5] = false := by
    simp only [decideFresh]
    rw [hni0]
    norm_num
  have hprog : programTable (fun k => decide (k = 0)) false (some ([0], [5])) [1] [5]
      = ⟨[.cls, .admBatch [1] [5]], some ([0], [5]), some "protocol"⟩ := by
    simp only [programTable]
    rw [hf]
    decide
  exact ⟨by rw [hprog], by rw [hprog], hf0⟩

/-- C5 amended: when the full-batch path is taken (forced fresh or empty
cache) and the `adm` acknowledgment is not `ok`, the error is raised and
the cache is left exactly as it was — it is cleared (forcing a full
reprogram next time) only if it was already empty. -/
theorem batch_ack_failure (ack : ℕ → Bool) (fresh : Bool)
    (cache : Option (List ℕ × List ℕ)) (do_table reps : List ℕ)
    (hpath : decideFresh fresh cache do_table reps = true ∨ cache = none)
    (h0 : ack 0 = true) (h1 : ack 1 = false) :
    programTable ack fresh cache do_table reps
      = ⟨[.cls, .admBatch do_table reps], cache, some "protocol"⟩ := by
  have hbatch : ∀ c, batchPath ack c do_table reps
      = ⟨[.cls, .admBatch do_table reps], c, some "protocol"⟩ := by
    intro c
    unfold batchPath
    rw [if_neg (by rw [h0]; simp), if_pos h1]
  rcases cache with _ | ⟨cdo, creps⟩ <;> simp only [programTable]
  · exact hbatch none
  · rcases hpath with hdf | hnone
    · rw [hdf]
      simp only [if_true]
      exact hbatch _
    · exact absurd hnone (by simp)

/-! ## `PrawnDOWorker.transition_to_manual` (blacs_workers.py 249-267)

The completion-polling loop.  `s k` is the run-status returned by the
k-th `sts` poll (0-indexed); the loop counter `i` of the code equals
`k + 1`.  The loop always returns within 1000 polls because the
`i == 1000` arm fires at the 1000th poll; the fuel argument makes the
recursion structural and, from the entry point, never runs out before
that arm. -/

inductive ManualResult
  | success (polls : ℕ)
  | timeoutAbort
  | statusError (rs : ℕ)
deriving DecidableEq

def transition_to_manual_loop (s : ℕ → ℕ) : ℕ → ℕ → ManualResult
  | _, 0 => .timeoutAbort
  | k, fuel + 1 =>
    if s k = 0 then .success k
    else if k + 1 = 1000 then .timeoutAbort
    else if s k = 3 ∨ s k = 4 ∨ s k = 5 then .statusError (s k)
    else transition_to_manual_loop s (k + 1) fuel

/-- `transition_to_manual`: poll until run-status 0 (return `True`), the
1000th poll (abort, then raise), or an abort-family status (raise without
aborting). -/
def transition_to_manual (s : ℕ → ℕ) : ManualResult :=
  transition_to_manual_loop s 0 1000

/-! ### Claim C8: the 1000-poll cap and early success -/

lemma ttm_loop_all_running (s : ℕ → ℕ) :
    ∀ fuel k, k + fuel = 1000 → (∀ i, k ≤ i → i < 1000 → s i = 2) →
    transition_to_manual_loop s k fuel = .timeoutAbort := by
  intro fuel
  induction fuel with
  | zero => intro k _ _; rfl
  | succ fuel ih =>
    intro k hk hs
    have hk2 : s k = 2 := hs k le_rfl (by omega)
    unfold transition_to_manual_loop
    rw [if_neg (by omega)]
    by_cases hcap : k + 1 = 1000
    · rw [if_pos hcap]
    · rw [if_neg hcap, if_neg (by omega)]
      exact ih (k + 1) (by omega) (fun i hi hi' => hs i (by omega) hi')

lemma ttm_loop_success (s : ℕ → ℕ) :
    ∀ fuel k j, k + fuel = 1000 → k ≤ j → j < 1000 →
    (∀ i, k ≤ i → i < j → s i = 2) → s j = 0 →
    transition_to_manual_loop s k fuel = .success j := by
  intro fuel
  induction fuel with
  | zero => intro k j hk hkj hj _ _; omega
  | succ fuel ih =>
    intro k j hk hkj hj hs hj0
    unfold transition_to_manual_loop
    by_cases hkj' : k = j
    · rw [if_pos (hkj' ▸ hj0), hkj']
    · have hk2 : s k = 2 := hs k le_rfl (by omega)
      rw [if_neg (by omega), if_neg (by omega), if_neg (by omega)]
      exact ih (k + 1) j (by omega) (by omega) hj
        (fun i hi hi' => hs i (by omega) hi') hj0

/-- C8.  If 1000 consecutive status polls only ever observe the
buffered-running status (2), the loop reaches the `i == 1000` arm, which
calls `abort_buffered()` and then raises the `LabscriptError`
(`ManualResult.timeoutAbort`); and if the polls show buffered-running
until the manual status (0) appears at some poll `j` before the cap, the
loop returns success at that poll. -/
theorem transition_to_manual_polling (s : ℕ → ℕ) :
    ((∀ k, k < 1000 → s k = 2) → transition_to_manual s = .timeoutAbort)
    ∧ (∀ j, j < 1000 → (∀ k, k < j → s k = 2) → s j = 0 →
        transition_to_manual s = .success j) := by
  constructor
  · intro hs
    exact ttm_loop_all_running s 1000 0 (by omega) (fun i _ hi => hs i hi)
  · intro j hj hs hj0
    exact ttm_loop_success s 1000 0 j (by omega) (by omega) hj
      (fun i _ hi => hs i hi) hj0

/-- C10.  If some poll strictly before the 1000th returns an
abort-family run-status (3, 4 or 5) and every earlier poll saw a status
that keeps the loop going, the worker raises immediately
(`ManualResult.statusError`): no abort command is issued
(`≠ timeoutAbort`, the only arm that calls `abort_buffered`) and no
further poll happens. -/
theorem transition_to_manual_abort_status (s : ℕ → ℕ) (j : ℕ)
    (hj : j + 1 < 1000)
    (hpre : ∀ k, k < j → s k ≠ 0 ∧ ¬(s k = 3 ∨ s k = 4 ∨ s k = 5))
    (hj3 : s j = 3 ∨ s j = 4 ∨ s j = 5) :
    transition_to_manual s = .statusError (s j) := by
  suffices H : ∀ fuel k, k + fuel = 1000 → k ≤ j →
      (∀ i, k ≤ i → i < j → s i ≠ 0 ∧ ¬(s i = 3 ∨ s i = 4 ∨ s i = 5)) →
      transition_to_manual_loop s k fuel = .statusError (s j) by
    exact H 1000 0 (by omega) (by omega) (fun i _ hi => hpre i hi)
  intro fuel
  induction fuel with
  | zero => intro k hk hkj _; omega
  | succ fuel ih =>
    intro k hk hkj hs
    unfold transition_to_manual_loop
    by_cases hkj' : k = j
    · subst hkj'
      rw [if_neg (by omega), if_neg (by omega), if_pos hj3]
    · obtain ⟨h0, h345⟩ := hs k le_rfl (by omega)
      rw [if_neg h0, if_neg (by omega), if_neg h345]
      exact ih (k + 1) (by omega) (by omega) (fun i hi hi' => hs i (by omega) hi')

/-! ### Witnesses: each hypothesis-bearing theorem applied at a concrete
input -/

theorem generate_table_terminal_pair_witness :
    ∃ pd pr : List ℕ,
      generate_table 1 [0, 1] [4, 7] [1] = (pd ++ [7, 0], pr ++ [0, 0])
      ∧ pd.length = pr.length :=
  generate_table_terminal_pair 1 [0, 1] [4, 7] [1] (by decide) rfl
    (by intro w hw; simp only [List.mem_singleton] at hw; subst hw; decide)

theorem new_inst_count_eq_witness :
    new_inst_count [0, 1] [2, 3] [0, 9] [2, 3]
      = countDiffRows (List.take 2 [0, 1]) (List.take 2 [2, 3])
          (List.take 2 [0, 9]) (List.take 2 [2, 3]) + 0 :=
  new_inst_count_eq [0, 1] [2, 3] [0, 9] [2, 3] rfl rfl

theorem batch_ack_failure_witness :
    programTable (fun k => decide (k = 0)) true none [2] [3]
      = ⟨[.cls, .admBatch [2] [3]], none, some "protocol"⟩ :=
  batch_ack_failure (fun k => decide (k = 0)) true none [2] [3] (Or.inr rfl) rfl rfl

theorem insertWaitStep_shape_witness :
    insertWaitStep [0, 1] ([5, 7, 0], [9, 3, 0]) 0 = ([0, 5, 7, 0], [0, 9, 3, 0]) :=
  insertWaitStep_shape [0, 1] 0 [5, 7, 0] [9, 3, 0] (by decide) rfl (by decide)

theorem generate_code_limit_witness :
    generate_code 1 1 [0, 1] [4, 7] [] = .tooMany :=
  generate_code_limit 1 1 [0, 1] [4, 7] [] (by decide)
    (by simp [generate_table])

theorem transition_to_manual_polling_witness :
    transition_to_manual (fun _ => 2) = .timeoutAbort
    ∧ transition_to_manual (fun k => if k < 3 then 2 else 0) = .success 3 :=
  ⟨(transition_to_manual_polling (fun _ => 2)).1 (fun _ _ => rfl),
   (transition_to_manual_polling (fun k => if k < 3 then 2 else 0)).2 3 (by omega)
     (fun k hk => if_pos hk) rfl⟩

theorem transition_to_manual_abort_status_witness :
    transition_to_manual (fun k => if k = 2 then 4 else 2) = .statusError 4 :=
  transition_to_manual_abort_status (fun k => if k = 2 then 4 else 2) 2 (by omega)
    (by intro k hk; simp only; rw [if_neg (by omega)]; omega) (by norm_num)

end PrawnDO
